import Mathlib

/-! Verification of the deadlock-detection repository (Chandy-Misra-Haas
edge-chasing).  The repository contains three variants:

* an RPC service (`DeadlockService`) with a recursive depth-first traversal
  `runDDFS`, a request handler `DetectDeadlock` and a dynamic `AddProcess`
  (namespace `RPC` below);
* a single-threaded recursive probe variant `sendProbe` over a process map
  (namespace `CMH` below);
* an actor/channel variant whose probe-handling loop `handleProbes` applies
  the edge-chasing rule per received probe (namespace `Actor` below).

Go maps are modelled as association lists / lists of keys, Go `int` as `Int`,
and Go recursion (which can in principle diverge or index out of range) as
fuel-indexed functions returning `DRes`: `ok` for a normal result, `oob` for
a runtime failure (out-of-range slice index / nil-map dereference, which in
Go is a panic), `fuelOut` when the fuel budget is exhausted.
-/

/-- Result of running a fuel-indexed embedding of Go code: a normal result,
a runtime indexing failure (Go panic), or fuel exhaustion. -/
inductive DRes (α : Type) where
  | ok (a : α)
  | oob
  | fuelOut
deriving DecidableEq

namespace RPC

/-- Type `Process` of the RPC server (part_001): a node with its dependency
targets. -/
structure Process where
  ID : Int
  Neighbors : List Int
deriving DecidableEq

/-- The `DeadlockService`'s process table (`ds.processes`, a Go slice). -/
abbrev Table := List Process

/-- Go slice indexing `ds.processes[current]` with an `Int` index: `none`
models the out-of-range panic. -/
def getAt (procs : Table) (i : Int) : Option Process :=
  if i < 0 then none else procs[i.toNat]?

/-- Insertion into the Go map `visited` (`visited[current] = true`): the key
list gains `x` if it is not already present. -/
def markVisited (v : List Int) (x : Int) : List Int :=
  if v.contains x then v else x :: v

/-- Increment of the Go map entry `messageCounts[k]++`, on an association
list. -/
def bump (m : List (Int × Nat)) (k : Int) : List (Int × Nat) :=
  match m with
  | [] => [(k, 1)]
  | (a, v) :: rest => if a = k then (a, v + 1) :: rest else (a, v) :: bump rest k

/-- The mutable state threaded through `runDDFS`: the `visited` map (as its
list of keys), the `messageCounts` map and the request-local counter. -/
structure DState where
  visited : List Int
  messageCounts : List (Int × Nat)
  localCounter : Nat
deriving DecidableEq

/-- The `for _, neighbor := range ds.processes[current].Neighbors` loop body
of `runDDFS`, abstracted over the recursive call `f` (which receives the
neighbor and the current state).  Counters are bumped for every scanned
neighbor, before the origin and visited checks, exactly as in the source. -/
def ddfsLoop (f : Int → DState → DRes (Bool × DState)) (origin : Int) :
    List Int → DState → DRes (Bool × DState)
  | [], st => .ok (false, st)
  | n :: rest, st =>
    let st1 : DState :=
      { st with messageCounts := bump st.messageCounts origin,
                localCounter := st.localCounter + 1 }
    if n = origin then .ok (true, st1)
    else if st1.visited.contains n then ddfsLoop f origin rest st1
    else
      match f n st1 with
      | .ok (true, st2) => .ok (true, st2)
      | .ok (false, st2) => ddfsLoop f origin rest st2
      | .oob => .oob
      | .fuelOut => .fuelOut

/-- Function `runDDFS` of the RPC server: marks `current` visited, then scans its
neighbors; returns `true` as soon as a neighbor equals `origin`, recursing
into unvisited neighbors.  Fuel-indexed; one unit of fuel is consumed per
node entry. -/
def runDDFS (procs : Table) : Nat → Int → Int → DState → DRes (Bool × DState)
  | 0, _, _, _ => .fuelOut
  | fuel + 1, origin, current, st =>
    match getAt procs current with
    | none => .oob
    | some p =>
      ddfsLoop (fun n st1 => runDDFS procs fuel origin n st1) origin p.Neighbors
        { st with visited := markVisited st.visited current }

/-- Insertion step of the sort used by `getSortedVisitedList` (`sort.Ints`). -/
def insertSorted (x : Int) : List Int → List Int
  | [] => [x]
  | y :: ys => if x ≤ y then x :: y :: ys else y :: insertSorted x ys

/-- Function `getSortedVisitedList` formats the visited map into a sorted
slice, as logged alongside a confirmation. -/
def getSortedVisitedList (visited : List Int) : List Int :=
  visited.foldr insertSorted []

/-- Type `DeadlockResponse` of the RPC server. -/
structure DeadlockResponse where
  Message : String
  DeadlockStatus : String
  MessageCounts : List (Int × Nat)
  TotalMessages : Nat
deriving DecidableEq

/-- Type `AddProcessResponse` of the RPC server. -/
structure AddProcessResponse where
  Message : String
deriving DecidableEq

/-- Handler `DetectDeadlock` of the RPC server: rejects an out-of-range process id with
`"Invalid Process ID"` (leaving the other response fields at their Go zero
values), otherwise runs `runDDFS` from the requested process and fills the
response.  The returned table is the (unchanged) service state. -/
def DetectDeadlock (procs : Table) (fuel : Nat) (pid : Int) :
    Table × DRes DeadlockResponse :=
  if pid < 0 ∨ (procs.length : Int) ≤ pid then
    (procs, .ok { Message := "Invalid Process ID", DeadlockStatus := "",
                  MessageCounts := [], TotalMessages := 0 })
  else
    match runDDFS procs fuel pid pid ⟨[], [], 0⟩ with
    | .ok (b, st) =>
      (procs, .ok { Message := "Deadlock detection completed for Process " ++ toString pid,
                    DeadlockStatus := if b then "Deadlock confirmed!" else "No deadlock detected.",
                    MessageCounts := st.messageCounts,
                    TotalMessages := st.localCounter })
    | .oob => (procs, .oob)
    | .fuelOut => (procs, .fuelOut)

/-- Handler `AddProcess` of the RPC server: appends the requested process to the table with
no validation whatsoever and reports success. -/
def AddProcess (procs : Table) (id : Int) (neighbors : List Int) :
    Table × AddProcessResponse :=
  (procs ++ [{ ID := id, Neighbors := neighbors }],
   { Message := "Process " ++ toString id ++ " added successfully!" })

/-- Dependency edge of the RPC table: `a` waits on `b`. -/
def edgeT (procs : Table) (a b : Int) : Prop :=
  ∃ p, getAt procs a = some p ∧ b ∈ p.Neighbors

/-- The RPC table's wait-for graph is acyclic. -/
def AcyclicT (procs : Table) : Prop :=
  ∀ a, ¬ Relation.TransGen (edgeT procs) a a

/-- Boolean edge test for concrete tables. -/
def hasEdge (procs : Table) (a b : Int) : Bool :=
  match getAt procs a with
  | some p => p.Neighbors.contains b
  | none => false

/-- Predicate `chainClosed procs first l`: consecutive elements of `l` are joined by
edges and the last one has an edge back to `first`. -/
def chainClosed (procs : Table) (first : Int) : List Int → Bool
  | [] => false
  | [x] => hasEdge procs x first
  | x :: y :: rest => hasEdge procs x y && chainClosed procs first (y :: rest)

/-- Predicate deciding whether `l` is a cycle path in the table's wait-for
graph. -/
def isCycleList (procs : Table) (l : List Int) : Bool :=
  match l with
  | [] => false
  | x :: _ => chainClosed procs x l

/-- Number of in-range indices not yet in the visited list: the termination
measure of `runDDFS`. -/
def unvisitedCount (procs : Table) (v : List Int) : Nat :=
  ((Finset.range procs.length).filter (fun i => ¬ v.contains (Int.ofNat i))).card

/-- Every neighbor id stored in the table is a valid index into the table. -/
def ValidTable (procs : Table) : Prop :=
  ∀ p ∈ procs, ∀ n ∈ p.Neighbors, 0 ≤ n ∧ n < (procs.length : Int)

end RPC

namespace CMH

/-- Type `Process` of the recursive variant (part_000): id, the processes it waits
for, and the `receivedProbes` map (as its list of keys set to true). -/
structure Process where
  id : Int
  waitingFor : List Int
  receivedProbes : List Int
deriving DecidableEq

/-- The Go `map[int]*Process`, as an association list. -/
abbrev PMap := List (Int × Process)

/-- Go map lookup `processes[k]`: `none` models the nil pointer whose field
access panics. -/
def plookup (m : PMap) (k : Int) : Option Process :=
  match m with
  | [] => none
  | (a, p) :: rest => if a = k then some p else plookup rest k

/-- Assignment `processes[target].receivedProbes[dependent] = true`: set the mark on the
entry with key `k` (first occurrence, as a Go map has unique keys). -/
def markReceived (m : PMap) (k d : Int) : PMap :=
  match m with
  | [] => []
  | (a, p) :: rest =>
    if a = k then
      (a, { p with receivedProbes :=
              if p.receivedProbes.contains d then p.receivedProbes
              else d :: p.receivedProbes }) :: rest
    else (a, p) :: markReceived rest k d

/-- The `for _, dependent := range processes[target].waitingFor` loop body of
`sendProbe`, abstracted over the recursive call `f` (which receives the new
probe sender = `target`, the dependent, and the marked map).  The
`receivedProbes` check re-reads the map each iteration, as the source does. -/
def probeLoop (f : Int → Int → PMap → DRes (Bool × PMap)) (origin target : Int) :
    List Int → PMap → DRes (Bool × PMap)
  | [], m => .ok (false, m)
  | d :: rest, m =>
    if d = origin then .ok (true, m)
    else
      match plookup m target with
      | none => .oob
      | some p =>
        if p.receivedProbes.contains d then probeLoop f origin target rest m
        else
          match f target d (markReceived m target d) with
          | .ok (true, m2) => .ok (true, m2)
          | .ok (false, m2) => probeLoop f origin target rest m2
          | .oob => .oob
          | .fuelOut => .fuelOut

/-- Function `sendProbe(probeSender, origin, target, processes)` of the recursive
variant: scans the dependents of `target`; a dependent equal to `origin`
confirms the deadlock; an unmarked dependent is marked and recursed into.
(The `len(...) > 0` guard of the source is the empty-list case of the loop.)
Fuel-indexed; one unit of fuel per call. -/
def sendProbe : Nat → Int → Int → Int → PMap → DRes (Bool × PMap)
  | 0, _, _, _, _ => .fuelOut
  | fuel + 1, _probeSender, origin, target, m =>
    match plookup m target with
    | none => .oob
    | some p =>
      probeLoop (fun t d m1 => sendProbe fuel t origin d m1) origin target
        p.waitingFor m

/-- Dependency edge of the process map: `a` waits on `b`.  Only the
`waitingFor` fields matter; `receivedProbes` marks do not change the graph. -/
def edgeM (m : PMap) (a b : Int) : Prop :=
  ∃ p, plookup m a = some p ∧ b ∈ p.waitingFor

/-- The process map's wait-for graph is acyclic. -/
def AcyclicM (m : PMap) : Prop :=
  ∀ a, ¬ Relation.TransGen (edgeM m) a a

/-- The graph skeleton of the map at key `k`: presence and `waitingFor`
list.  `sendProbe` only mutates `receivedProbes`, so this is invariant. -/
def wfOf (m : PMap) (k : Int) : Option (List Int) :=
  (plookup m k).map Process.waitingFor

/-- Unmarked dependents of one process: its termination-measure
contribution. -/
def unmarkedAt (p : Process) : Nat :=
  (p.waitingFor.filter (fun d => ! p.receivedProbes.contains d)).length

/-- Total number of unmarked wait-for edges of the map: the termination
measure of `sendProbe`. -/
def unmarkedCount (m : PMap) : Nat :=
  (m.map (fun e => unmarkedAt e.2)).sum

end CMH

namespace Actor

/-- Type `Probe` of the actor variant (part_003).  The acknowledgment channel is
delivery telemetry only and is not part of the pure model. -/
structure Probe where
  SessionID : Int
  Initiator : Int
  Sender : Int
  Visited : List Int
deriving DecidableEq

/-- Type `Process` of the actor variant: id, successor ids, the per-session
forwarded-flag map `visited` (as its key list), the per-session reported-flag
map `deadlockCache` (as its key list), and the sent-message counter. -/
structure Process where
  ID : Int
  successors : List Int
  visited : List Int
  deadlockCache : List Int
  messagesSent : Nat
deriving DecidableEq

/-- Outcome of handling one probe: successor state, an emitted deadlock
report (the probe's path) if any, and the forwarded probe (sent to every
successor) if any. -/
structure HandleResult where
  state : Process
  report : Option (List Int)
  forward : Option Probe
deriving DecidableEq

/-- The per-probe body of the `handleProbes` loop of the actor variant,
under the node's lock:
1. a probe back at its initiator with the session not yet in
   `deadlockCache` is reported (path = `probe.Visited`) and cached, and is
   not forwarded;
2. otherwise, if the session is not in `visited` and there are successors,
   the flag is set and a fresh probe with the node's id appended to the path
   is sent to every successor (each send bumps `messagesSent`, modelling the
   within-deadline deliveries of `sendProbe`);
3. otherwise the probe is dropped. -/
def handleProbe (p : Process) (pr : Probe) : HandleResult :=
  if pr.Initiator = p.ID ∧ ¬ p.deadlockCache.contains pr.SessionID then
    { state := { p with deadlockCache := pr.SessionID :: p.deadlockCache },
      report := some pr.Visited, forward := none }
  else if ¬ p.visited.contains pr.SessionID ∧ p.successors ≠ [] then
    { state := { p with visited := pr.SessionID :: p.visited,
                        messagesSent := p.messagesSent + p.successors.length },
      report := none,
      forward := some { SessionID := pr.SessionID, Initiator := pr.Initiator,
                        Sender := p.ID, Visited := pr.Visited ++ [p.ID] } }
  else { state := p, report := none, forward := none }

/-- Sequentially handle a list of delivered probes at one node, collecting
the probes the node forwards. -/
def handleSeq (p : Process) : List Probe → Process × List Probe
  | [] => (p, [])
  | pr :: rest =>
    let r := handleProbe p pr
    let out := handleSeq r.state rest
    (out.1, r.forward.toList ++ out.2)

/-- Number of forwarded probes that belong to session `sid`. -/
def forwardCount (fs : List Probe) (sid : Int) : Nat :=
  (fs.filter (fun q => q.SessionID = sid)).length

/-- Global state of the in-process actor system: the nodes, the union of
the probe channels as a FIFO queue of (target node id, probe), and the
deadlock reports emitted so far as (reporting node, initiator, path). -/
structure SysState where
  nodes : List Process
  queue : List (Int × Probe)
  reports : List (Int × Int × List Int)
deriving DecidableEq

/-- Find the node with a given id. -/
def getNode (ns : List Process) (i : Int) : Option Process :=
  ns.find? (fun p => p.ID = i)

/-- Replace the node carrying `p.ID` by `p`. -/
def setNode (ns : List Process) (p : Process) : List Process :=
  ns.map (fun q => if q.ID = p.ID then p else q)

/-- Deliver the next queued probe to its target node, apply `handleProbe`,
enqueue the forwarded probe (if any) to every successor of the node and
record the report (if any). -/
def deliverStep (s : SysState) : SysState :=
  match s.queue with
  | [] => s
  | (t, pr) :: rest =>
    match getNode s.nodes t with
    | none => { s with queue := rest }
    | some p =>
      let r := handleProbe p pr
      let outs : List (Int × Probe) :=
        match r.forward with
        | some q => r.state.successors.map (fun succ => (succ, q))
        | none => []
      { nodes := setNode s.nodes r.state,
        queue := rest ++ outs,
        reports := s.reports ++
          (match r.report with
           | some path => [(t, pr.Initiator, path)]
           | none => []) }

/-- Run `n` delivery steps. -/
def runSys : Nat → SysState → SysState
  | 0, s => s
  | n + 1, s => runSys n (deliverStep s)

/-- One initiation tick of `Run` at node `nid` with fresh session id `sid`:
if the node has successors it marks its own forwarded-flag for the session
and sends the probe `{sid, nid, nid, [nid]}` to every successor. -/
def initiate (s : SysState) (nid sid : Int) : SysState :=
  match getNode s.nodes nid with
  | none => s
  | some p =>
    if p.successors = [] then s
    else
      let p' : Process :=
        { p with visited := sid :: p.visited,
                 messagesSent := p.messagesSent + p.successors.length }
      let pr : Probe := { SessionID := sid, Initiator := nid, Sender := nid,
                          Visited := [nid] }
      { s with nodes := setNode s.nodes p',
               queue := s.queue ++ p.successors.map (fun succ => (succ, pr)) }

/-- Fresh node with given id and successors, as built by `NewProcess`. -/
def mkProcess (i : Int) (succ : List Int) : Process :=
  { ID := i, successors := succ, visited := [], deadlockCache := [],
    messagesSent := 0 }

/-- The 4-node full cycle 0 → 1 → 2 → 3 → 0 of the actor `main`. -/
def cycleSys : SysState :=
  ⟨[mkProcess 0 [1], mkProcess 1 [2], mkProcess 2 [3], mkProcess 3 [0]], [], []⟩

/-- The 4-node chain 0 → 1 → 2 → 3 with no closing edge. -/
def chainSys : SysState :=
  ⟨[mkProcess 0 [1], mkProcess 1 [2], mkProcess 2 [3], mkProcess 3 []], [], []⟩

end Actor

namespace RPC

/-- The initial table of the RPC server's `main`: circular dependency
0 → 1 → 2 → 3 → 0. -/
def cycle4T : Table := [⟨0, [1]⟩, ⟨1, [2]⟩, ⟨2, [3]⟩, ⟨3, [0]⟩]

/-- The 4-node chain table 0 → 1 → 2 → 3, no closing edge. -/
def chain4T : Table := [⟨0, [1]⟩, ⟨1, [2]⟩, ⟨2, [3]⟩, ⟨3, []⟩]

/-- A branching table: 0 waits on 1 and 2, 1 waits on nothing, 2 waits on 0.
Its only cycle is 0 → 2 → 0, yet a traversal from 0 visits node 1 first. -/
def branchT : Table := [⟨0, [1, 2]⟩, ⟨1, []⟩, ⟨2, [0]⟩]

/-- A one-node table with no edges (trivially acyclic). -/
def oneT : Table := [⟨0, []⟩]

/-- Status string carried by a detection result (projection used to state
scenario claims). -/
def resStatus : DRes DeadlockResponse → String
  | .ok r => r.DeadlockStatus
  | .oob => "runtime error"
  | .fuelOut => "fuel exhausted"

end RPC

namespace CMH

/-- The map of part_000's `main`: cycle 1 → 2 → 3 → 1, no marks. -/
def cycleM : PMap :=
  [(1, ⟨1, [2], []⟩), (2, ⟨2, [3], []⟩), (3, ⟨3, [1], []⟩)]

/-- A one-process map with no edges (trivially acyclic). -/
def oneM : PMap := [(1, ⟨1, [], []⟩)]

end CMH

namespace Actor

theorem handleProbe_visited_mono (p : Process) (pr : Probe) (sid : Int)
    (h : p.visited.contains sid = true) :
    ((handleProbe p pr).state).visited.contains sid = true := by
  have hm : sid ∈ p.visited := by simpa using h
  unfold handleProbe
  split
  · exact h
  · split
    · simp [hm]
    · exact h

theorem handleProbe_forward_cases (p : Process) (pr : Probe) :
    ((handleProbe p pr).forward = none ∧ (handleProbe p pr).state.visited = p.visited) ∨
    ((handleProbe p pr).forward =
        some { SessionID := pr.SessionID, Initiator := pr.Initiator,
               Sender := p.ID, Visited := pr.Visited ++ [p.ID] } ∧
      p.visited.contains pr.SessionID = false ∧
      (handleProbe p pr).state.visited = pr.SessionID :: p.visited) := by
  unfold handleProbe
  split
  · left; exact ⟨rfl, rfl⟩
  · split
    · next hcond =>
      right
      refine ⟨rfl, ?_, rfl⟩
      simpa using hcond.1
    · left; exact ⟨rfl, rfl⟩

theorem forwardCount_append (a b : List Probe) (sid : Int) :
    forwardCount (a ++ b) sid = forwardCount a sid + forwardCount b sid := by
  simp [forwardCount, List.filter_append]

theorem handleSeq_snd (p : Process) (pr : Probe) (rest : List Probe) :
    (handleSeq p (pr :: rest)).2 =
      (handleProbe p pr).forward.toList ++ (handleSeq (handleProbe p pr).state rest).2 := by
  simp [handleSeq]

theorem handleSeq_count (prs : List Probe) : ∀ (p : Process) (sid : Int),
    (p.visited.contains sid = true → forwardCount (handleSeq p prs).2 sid = 0) ∧
    forwardCount (handleSeq p prs).2 sid ≤ 1 := by
  induction prs with
  | nil => intro p sid; simp [handleSeq, forwardCount]
  | cons pr rest ih =>
    intro p sid
    rcases handleProbe_forward_cases p pr with ⟨hf, hv⟩ | ⟨hf, hflag, hv⟩
    · have hhead : forwardCount (handleProbe p pr).forward.toList sid = 0 := by
        simp [hf, forwardCount]
      constructor
      · intro h
        have hrest := (ih (handleProbe p pr).state sid).1 (handleProbe_visited_mono p pr sid h)
        rw [handleSeq_snd, forwardCount_append, hhead, hrest]
      · have hrest := (ih (handleProbe p pr).state sid).2
        rw [handleSeq_snd, forwardCount_append, hhead]
        omega
    · by_cases hs : pr.SessionID = sid
      · subst hs
        have hhead : forwardCount (handleProbe p pr).forward.toList pr.SessionID = 1 := by
          simp [hf, forwardCount]
        have hrest := (ih (handleProbe p pr).state pr.SessionID).1 (by rw [hv]; simp)
        constructor
        · intro h
          rw [h] at hflag; exact absurd hflag (by simp)
        · rw [handleSeq_snd, forwardCount_append, hhead, hrest]
      · have hhead : forwardCount (handleProbe p pr).forward.toList sid = 0 := by
          simp [hf, forwardCount, hs]
        constructor
        · intro h
          have hrest := (ih (handleProbe p pr).state sid).1 (handleProbe_visited_mono p pr sid h)
          rw [handleSeq_snd, forwardCount_append, hhead, hrest]
        · have hrest := (ih (handleProbe p pr).state sid).2
          rw [handleSeq_snd, forwardCount_append, hhead]
          omega

end Actor

namespace RPC

theorem markVisited_contains_mono (v : List Int) (c x : Int)
    (h : v.contains x = true) : (markVisited v c).contains x = true := by
  unfold markVisited
  split
  · exact h
  · have hx : x ∈ v := by simpa using h
    simp [hx]

theorem markVisited_contains_self (v : List Int) (c : Int) :
    (markVisited v c).contains c = true := by
  unfold markVisited
  split
  · assumption
  · simp

theorem ddfsLoop_mono (f : Int → DState → DRes (Bool × DState)) (origin : Int)
    (hf : ∀ n st1 b st2, f n st1 = .ok (b, st2) →
        ∀ x, st1.visited.contains x = true → st2.visited.contains x = true) :
    ∀ (ns : List Int) (st : DState) (b : Bool) (st' : DState),
      ddfsLoop f origin ns st = .ok (b, st') →
      ∀ x, st.visited.contains x = true → st'.visited.contains x = true := by
  intro ns
  induction ns with
  | nil =>
    intro st b st' h x hx
    unfold ddfsLoop at h
    cases h
    exact hx
  | cons n rest ih =>
    intro st b st' h x hx
    unfold ddfsLoop at h
    by_cases h1 : n = origin
    · rw [if_pos h1] at h
      cases h
      exact hx
    · rw [if_neg h1] at h
      split at h
      · exact ih _ b st' h x hx
      · cases hcall : f n { st with messageCounts := bump st.messageCounts origin,
                                    localCounter := st.localCounter + 1 } with
        | ok a =>
          rcases a with ⟨bb, st2⟩
          rw [hcall] at h
          cases bb with
          | true =>
            cases h
            exact hf n _ true st' hcall x hx
          | false =>
            exact ih st2 b st' h x (hf n _ false st2 hcall x hx)
        | oob => rw [hcall] at h; cases h
        | fuelOut => rw [hcall] at h; cases h

theorem runDDFS_visited_mono : ∀ (fuel : Nat) (procs : Table) (origin current : Int)
    (st : DState) (b : Bool) (st' : DState),
    runDDFS procs fuel origin current st = .ok (b, st') →
    ∀ x, st.visited.contains x = true → st'.visited.contains x = true := by
  intro fuel
  induction fuel with
  | zero => intro procs origin current st b st' h; cases h
  | succ fuel ih =>
    intro procs origin current st b st' h x hx
    unfold runDDFS at h
    cases hget : getAt procs current with
    | none => rw [hget] at h; cases h
    | some p =>
      rw [hget] at h
      exact ddfsLoop_mono _ origin (fun n st1 b2 st2 hc => ih procs origin n st1 b2 st2 hc)
        p.Neighbors _ b st' h x (markVisited_contains_mono st.visited current x hx)

theorem getAt_bounds (procs : Table) (c : Int) (p : Process)
    (h : getAt procs c = some p) :
    0 ≤ c ∧ c.toNat < procs.length ∧ Int.ofNat c.toNat = c ∧ p ∈ procs := by
  unfold getAt at h
  split at h
  · cases h
  · next hneg =>
    have hc : 0 ≤ c := by omega
    have hlt := List.getElem?_eq_some.mp h
    rcases hlt with ⟨hl, hget⟩
    exact ⟨hc, hl, Int.toNat_of_nonneg hc ▸ rfl, hget ▸ List.getElem_mem hl⟩

theorem unvisitedCount_anti (procs : Table) (v w : List Int)
    (h : ∀ x, v.contains x = true → w.contains x = true) :
    unvisitedCount procs w ≤ unvisitedCount procs v := by
  unfold unvisitedCount
  apply Finset.card_le_card
  intro i hi
  simp only [Finset.mem_filter, Finset.mem_range] at hi ⊢
  refine ⟨hi.1, fun hc => hi.2 ?_⟩
  exact h _ hc

theorem unvisitedCount_mark_lt (procs : Table) (v : List Int) (c : Int) (p : Process)
    (hget : getAt procs c = some p) (hc : v.contains c = false) :
    unvisitedCount procs (markVisited v c) < unvisitedCount procs v := by
  obtain ⟨h0, hlt, hofNat, _⟩ := getAt_bounds procs c p hget
  unfold unvisitedCount
  apply Finset.card_lt_card
  constructor
  · intro i hi
    simp only [Finset.mem_filter, Finset.mem_range] at hi ⊢
    exact ⟨hi.1, fun hcc => hi.2 (markVisited_contains_mono v c _ hcc)⟩
  · intro hsub
    have hmem : c.toNat ∈ (Finset.range procs.length).filter
        (fun i => ¬ v.contains (Int.ofNat i)) := by
      simp only [Finset.mem_filter, Finset.mem_range]
      refine ⟨hlt, ?_⟩
      rw [hofNat, hc]
      simp
    have := hsub hmem
    simp only [Finset.mem_filter, Finset.mem_range] at this
    exact this.2 (by rw [hofNat]; exact markVisited_contains_self v c)

theorem ddfsLoop_ne_fuelOut (f : Int → DState → DRes (Bool × DState)) (origin : Int)
    (v0 : List Int)
    (hmono : ∀ n st1 b st2, f n st1 = .ok (b, st2) →
        ∀ x, st1.visited.contains x = true → st2.visited.contains x = true)
    (hf : ∀ n st1, (∀ x, v0.contains x = true → st1.visited.contains x = true) →
        st1.visited.contains n = false → f n st1 ≠ .fuelOut) :
    ∀ (ns : List Int) (st : DState),
      (∀ x, v0.contains x = true → st.visited.contains x = true) →
      ddfsLoop f origin ns st ≠ .fuelOut := by
  intro ns
  induction ns with
  | nil =>
    intro st hsup h
    unfold ddfsLoop at h
    cases h
  | cons n rest ih =>
    intro st hsup h
    unfold ddfsLoop at h
    by_cases h1 : n = origin
    · rw [if_pos h1] at h; cases h
    · rw [if_neg h1] at h
      split at h
      · exact ih { st with messageCounts := bump st.messageCounts origin,
                           localCounter := st.localCounter + 1 } hsup h
      · next hnvis =>
        cases hcall : f n { st with messageCounts := bump st.messageCounts origin,
                                    localCounter := st.localCounter + 1 } with
        | ok a =>
          rcases a with ⟨bb, st2⟩
          rw [hcall] at h
          cases bb with
          | true => cases h
          | false =>
            exact ih st2 (fun x hx => hmono n _ false st2 hcall x (hsup x hx)) h
        | oob => rw [hcall] at h; cases h
        | fuelOut =>
          exact hf n { st with messageCounts := bump st.messageCounts origin,
                               localCounter := st.localCounter + 1 }
            hsup (by simpa using hnvis) hcall

theorem runDDFS_ne_fuelOut : ∀ (fuel : Nat) (procs : Table) (origin current : Int)
    (st : DState),
    st.visited.contains current = false →
    unvisitedCount procs st.visited + 1 ≤ fuel →
    runDDFS procs fuel origin current st ≠ .fuelOut := by
  intro fuel
  induction fuel with
  | zero => intro procs origin current st hc hcnt; omega
  | succ fuel ih =>
    intro procs origin current st hc hcnt h
    unfold runDDFS at h
    cases hget : getAt procs current with
    | none => rw [hget] at h; cases h
    | some p =>
      rw [hget] at h
      have hlt := unvisitedCount_mark_lt procs st.visited current p hget hc
      refine ddfsLoop_ne_fuelOut _ origin (markVisited st.visited current)
        (fun n st1 b st2 hcall => runDDFS_visited_mono fuel procs origin n st1 b st2 hcall)
        (fun n st1 hsup hn => ih procs origin n st1 hn ?_)
        p.Neighbors _ (fun x hx => hx) h
      have hle := unvisitedCount_anti procs (markVisited st.visited current) st1.visited hsup
      omega

theorem ddfsLoop_ne_oob (f : Int → DState → DRes (Bool × DState))
    (origin : Int) (procs : Table)
    (hf : ∀ n st1, 0 ≤ n → n < (procs.length : Int) → f n st1 ≠ .oob) :
    ∀ (ns : List Int) (st : DState),
      (∀ n ∈ ns, 0 ≤ n ∧ n < (procs.length : Int)) →
      ddfsLoop f origin ns st ≠ .oob := by
  intro ns
  induction ns with
  | nil =>
    intro st hns h
    unfold ddfsLoop at h
    cases h
  | cons n rest ih =>
    intro st hns h
    unfold ddfsLoop at h
    by_cases h1 : n = origin
    · rw [if_pos h1] at h; cases h
    · rw [if_neg h1] at h
      split at h
      · exact ih _ (fun x hx => hns x (List.mem_cons_of_mem n hx)) h
      · cases hcall : f n { st with messageCounts := bump st.messageCounts origin,
                                    localCounter := st.localCounter + 1 } with
        | ok a =>
          rcases a with ⟨bb, st2⟩
          rw [hcall] at h
          cases bb with
          | true => cases h
          | false => exact ih st2 (fun x hx => hns x (List.mem_cons_of_mem n hx)) h
        | oob =>
          have hn := hns n (List.mem_cons_self n rest)
          exact hf n _ hn.1 hn.2 hcall
        | fuelOut => rw [hcall] at h; cases h

theorem getAt_isSome_of_bounds (procs : Table) (c : Int)
    (h0 : 0 ≤ c) (hlt : c < (procs.length : Int)) :
    ∃ p, getAt procs c = some p := by
  unfold getAt
  rw [if_neg (by omega)]
  have : c.toNat < procs.length := by omega
  exact ⟨procs[c.toNat], List.getElem?_eq_getElem this⟩

theorem runDDFS_ne_oob : ∀ (fuel : Nat) (procs : Table) (origin current : Int)
    (st : DState),
    ValidTable procs →
    0 ≤ current → current < (procs.length : Int) →
    runDDFS procs fuel origin current st ≠ .oob := by
  intro fuel
  induction fuel with
  | zero => intro procs origin current st _ _ _ h; cases h
  | succ fuel ih =>
    intro procs origin current st hvalid h0 hlt h
    unfold runDDFS at h
    obtain ⟨p, hget⟩ := getAt_isSome_of_bounds procs current h0 hlt
    rw [hget] at h
    have hmem := (getAt_bounds procs current p hget).2.2.2
    exact ddfsLoop_ne_oob _ origin procs
      (fun n st1 hn0 hnlt => ih procs origin n st1 hvalid hn0 hnlt)
      p.Neighbors _ (fun n hn => hvalid p hmem n hn) h

theorem ddfsLoop_true_path (f : Int → DState → DRes (Bool × DState))
    (origin current : Int) (procs : Table)
    (hf : ∀ n st1 st2, f n st1 = .ok (true, st2) →
        Relation.TransGen (edgeT procs) n origin) :
    ∀ (ns : List Int) (st : DState) (st' : DState),
      (∀ n ∈ ns, edgeT procs current n) →
      ddfsLoop f origin ns st = .ok (true, st') →
      Relation.TransGen (edgeT procs) current origin := by
  intro ns
  induction ns with
  | nil =>
    intro st st' hns h
    unfold ddfsLoop at h
    cases h
  | cons n rest ih =>
    intro st st' hns h
    unfold ddfsLoop at h
    by_cases h1 : n = origin
    · exact Relation.TransGen.single (h1 ▸ hns n (List.mem_cons_self n rest))
    · rw [if_neg h1] at h
      split at h
      · exact ih _ st' (fun x hx => hns x (List.mem_cons_of_mem n hx)) h
      · cases hcall : f n { st with messageCounts := bump st.messageCounts origin,
                                    localCounter := st.localCounter + 1 } with
        | ok a =>
          rcases a with ⟨bb, st2⟩
          rw [hcall] at h
          cases bb with
          | true =>
            exact Relation.TransGen.head (hns n (List.mem_cons_self n rest))
              (hf n _ st2 hcall)
          | false => exact ih st2 st' (fun x hx => hns x (List.mem_cons_of_mem n hx)) h
        | oob => rw [hcall] at h; cases h
        | fuelOut => rw [hcall] at h; cases h

theorem runDDFS_true_path : ∀ (fuel : Nat) (procs : Table) (origin current : Int)
    (st : DState) (st' : DState),
    runDDFS procs fuel origin current st = .ok (true, st') →
    Relation.TransGen (edgeT procs) current origin := by
  intro fuel
  induction fuel with
  | zero => intro procs origin current st st' h; cases h
  | succ fuel ih =>
    intro procs origin current st st' h
    unfold runDDFS at h
    cases hget : getAt procs current with
    | none => rw [hget] at h; cases h
    | some p =>
      rw [hget] at h
      exact ddfsLoop_true_path _ origin current procs
        (fun n st1 st2 hcall => ih procs origin n st1 st2 hcall)
        p.Neighbors _ st' (fun n hn => ⟨p, hget, hn⟩) h

end RPC

namespace CMH

theorem wfOf_markReceived (m : PMap) (t d : Int) :
    ∀ k, wfOf (markReceived m t d) k = wfOf m k := by
  induction m with
  | nil => intro k; rfl
  | cons e rest ih =>
    intro k
    rcases e with ⟨a, p⟩
    unfold markReceived
    by_cases hat : a = t
    · rw [if_pos hat]
      unfold wfOf plookup
      by_cases hak : a = k
      · rw [if_pos hak, if_pos hak]; rfl
      · rw [if_neg hak, if_neg hak]
    · rw [if_neg hat]
      unfold wfOf plookup
      by_cases hak : a = k
      · rw [if_pos hak, if_pos hak]
      · rw [if_neg hak, if_neg hak]
        exact ih k

theorem length_filter_contains_le (r : List Int) (x : Int) (l : List Int) :
    (l.filter (fun y => ! (x :: r).contains y)).length ≤
      (l.filter (fun y => ! r.contains y)).length := by
  rw [← List.countP_eq_length_filter, ← List.countP_eq_length_filter]
  apply List.countP_mono_left
  intro a _ ha
  simp only [List.contains_cons, Bool.not_eq_true', Bool.or_eq_false_iff] at ha ⊢
  simpa using ha.2

theorem length_filter_contains_lt (r : List Int) (d : Int) :
    ∀ (l : List Int), d ∈ l → r.contains d = false →
    (l.filter (fun y => ! (d :: r).contains y)).length <
      (l.filter (fun y => ! r.contains y)).length := by
  intro l
  induction l with
  | nil => intro h; cases h
  | cons x xs ih =>
    intro hmem hnc
    rw [List.filter_cons, List.filter_cons]
    by_cases hxd : x = d
    · subst hxd
      rw [if_neg (by simp), if_pos (by simpa using hnc)]
      have := length_filter_contains_le r x xs
      simp only [List.length_cons]
      omega
    · have hxs : d ∈ xs := by
        rcases List.mem_cons.mp hmem with h | h
        · exact absurd h.symm hxd
        · exact h
      have heq : ((d :: r).contains x) = (r.contains x) := by
        rw [List.contains_cons]
        simp [hxd]
      rw [heq]
      by_cases hrx : r.contains x = true
      · rw [if_neg (by simpa using hrx), if_neg (by simpa using hrx)]
        exact ih hxs hnc
      · have hrx' : r.contains x = false := by
          cases hb : r.contains x
          · rfl
          · exact absurd hb hrx
        rw [if_pos (by simpa using hrx'), if_pos (by simpa using hrx')]
        simp only [List.length_cons]
        exact Nat.succ_lt_succ (ih hxs hnc)

theorem unmarkedCount_cons (e : Int × Process) (rest : PMap) :
    unmarkedCount (e :: rest) = unmarkedAt e.2 + unmarkedCount rest := by
  simp [unmarkedCount]

theorem unmarkedAt_mark_le (p : Process) (d : Int) :
    unmarkedAt { p with receivedProbes :=
        if p.receivedProbes.contains d then p.receivedProbes
        else d :: p.receivedProbes } ≤ unmarkedAt p := by
  unfold unmarkedAt
  split
  · exact le_refl _
  · exact length_filter_contains_le p.receivedProbes d p.waitingFor

theorem unmarkedCount_markReceived_le (m : PMap) (t d : Int) :
    unmarkedCount (markReceived m t d) ≤ unmarkedCount m := by
  induction m with
  | nil => exact le_refl _
  | cons e rest ih =>
    rcases e with ⟨a, p⟩
    unfold markReceived
    by_cases hat : a = t
    · rw [if_pos hat, unmarkedCount_cons, unmarkedCount_cons]
      have := unmarkedAt_mark_le p d
      simp only at this ⊢
      omega
    · rw [if_neg hat, unmarkedCount_cons, unmarkedCount_cons]
      omega

theorem unmarkedCount_markReceived_lt (m : PMap) (t d : Int) (p : Process)
    (hl : plookup m t = some p) (hd : d ∈ p.waitingFor)
    (hnc : p.receivedProbes.contains d = false) :
    unmarkedCount (markReceived m t d) < unmarkedCount m := by
  induction m with
  | nil => cases hl
  | cons e rest ih =>
    rcases e with ⟨a, q⟩
    unfold markReceived
    unfold plookup at hl
    by_cases hat : a = t
    · rw [if_pos hat] at hl ⊢
      cases hl
      rw [unmarkedCount_cons, unmarkedCount_cons]
      have hlt : unmarkedAt { p with receivedProbes :=
          if p.receivedProbes.contains d then p.receivedProbes
          else d :: p.receivedProbes } < unmarkedAt p := by
        unfold unmarkedAt
        rw [if_neg (by rw [hnc]; exact Bool.false_ne_true)]
        exact length_filter_contains_lt p.receivedProbes d p.waitingFor hd hnc
      simp only at hlt ⊢
      omega
    · rw [if_neg hat] at hl ⊢
      rw [unmarkedCount_cons, unmarkedCount_cons]
      have := ih hl
      omega

theorem probeLoop_preserves (f : Int → Int → PMap → DRes (Bool × PMap))
    (origin target : Int)
    (hf : ∀ t d m1 b m2, f t d m1 = .ok (b, m2) →
        (∀ k, wfOf m2 k = wfOf m1 k) ∧ unmarkedCount m2 ≤ unmarkedCount m1) :
    ∀ (ds : List Int) (m : PMap) (b : Bool) (m' : PMap),
      probeLoop f origin target ds m = .ok (b, m') →
      (∀ k, wfOf m' k = wfOf m k) ∧ unmarkedCount m' ≤ unmarkedCount m := by
  intro ds
  induction ds with
  | nil =>
    intro m b m' h
    unfold probeLoop at h
    cases h
    exact ⟨fun k => rfl, le_refl _⟩
  | cons d rest ih =>
    intro m b m' h
    unfold probeLoop at h
    by_cases hdo : d = origin
    · rw [if_pos hdo] at h
      cases h
      exact ⟨fun k => rfl, le_refl _⟩
    · rw [if_neg hdo] at h
      split at h
      · cases h
      · next p hl =>
        split at h
        · exact ih m b m' h
        · cases hcall : f target d (markReceived m target d) with
          | ok a =>
            rcases a with ⟨bb, m2⟩
            rw [hcall] at h
            obtain ⟨hw2, hc2⟩ := hf target d _ bb m2 hcall
            have hw1 := wfOf_markReceived m target d
            have hc1 := unmarkedCount_markReceived_le m target d
            cases bb with
            | true =>
              cases h
              exact ⟨fun k => (hw2 k).trans (hw1 k), le_trans hc2 hc1⟩
            | false =>
              obtain ⟨hw3, hc3⟩ := ih m2 b m' h
              exact ⟨fun k => (hw3 k).trans ((hw2 k).trans (hw1 k)), by omega⟩
          | oob => rw [hcall] at h; cases h
          | fuelOut => rw [hcall] at h; cases h

theorem sendProbe_preserves : ∀ (fuel : Nat) (s origin target : Int) (m : PMap)
    (b : Bool) (m' : PMap),
    sendProbe fuel s origin target m = .ok (b, m') →
    (∀ k, wfOf m' k = wfOf m k) ∧ unmarkedCount m' ≤ unmarkedCount m := by
  intro fuel
  induction fuel with
  | zero => intro s o t m b m' h; cases h
  | succ fuel ih =>
    intro s o t m b m' h
    unfold sendProbe at h
    cases hl : plookup m t with
    | none => rw [hl] at h; cases h
    | some p =>
      rw [hl] at h
      exact probeLoop_preserves _ o t
        (fun t' d m1 b2 m2 hc => ih t' o d m1 b2 m2 hc) p.waitingFor m b m' h

theorem probeLoop_ne_fuelOut (f : Int → Int → PMap → DRes (Bool × PMap))
    (origin target : Int) (m0 : PMap) (wfT : List Int)
    (hwf0 : wfOf m0 target = some wfT)
    (hf1 : ∀ t d m1, unmarkedCount m1 < unmarkedCount m0 → f t d m1 ≠ .fuelOut)
    (hf2 : ∀ t d m1 b m2, f t d m1 = .ok (b, m2) →
        (∀ k, wfOf m2 k = wfOf m1 k) ∧ unmarkedCount m2 ≤ unmarkedCount m1) :
    ∀ (ds : List Int) (m : PMap),
      (∀ k, wfOf m k = wfOf m0 k) → unmarkedCount m ≤ unmarkedCount m0 →
      (∀ d ∈ ds, d ∈ wfT) →
      probeLoop f origin target ds m ≠ .fuelOut := by
  intro ds
  induction ds with
  | nil =>
    intro m _ _ _ h
    unfold probeLoop at h
    cases h
  | cons d rest ih =>
    intro m hwf hcnt hds h
    unfold probeLoop at h
    by_cases hdo : d = origin
    · rw [if_pos hdo] at h; cases h
    · rw [if_neg hdo] at h
      split at h
      · cases h
      · next p hl =>
        split at h
        · exact ih m hwf hcnt (fun x hx => hds x (List.mem_cons_of_mem d hx)) h
        · next hmarked =>
          have hwt : p.waitingFor = wfT := by
            have hh := hwf target
            rw [hwf0] at hh
            unfold wfOf at hh
            rw [hl] at hh
            simpa using hh
          have hdp : d ∈ p.waitingFor := by
            rw [hwt]
            exact hds d (List.mem_cons_self d rest)
          have hnc : p.receivedProbes.contains d = false := by
            cases hb : p.receivedProbes.contains d
            · rfl
            · exact absurd hb hmarked
          have hlt := unmarkedCount_markReceived_lt m target d p hl hdp hnc
          cases hcall : f target d (markReceived m target d) with
          | ok a =>
            rcases a with ⟨bb, m2⟩
            rw [hcall] at h
            cases bb with
            | true => cases h
            | false =>
              obtain ⟨hw2, hc2⟩ := hf2 target d _ false m2 hcall
              exact ih m2
                (fun k => (hw2 k).trans ((wfOf_markReceived m target d k).trans (hwf k)))
                (by omega) (fun x hx => hds x (List.mem_cons_of_mem d hx)) h
          | oob => rw [hcall] at h; cases h
          | fuelOut => exact hf1 target d _ (by omega) hcall

theorem sendProbe_ne_fuelOut : ∀ (fuel : Nat) (s origin target : Int) (m : PMap),
    unmarkedCount m + 1 ≤ fuel →
    sendProbe fuel s origin target m ≠ .fuelOut := by
  intro fuel
  induction fuel with
  | zero => intro s o t m hcnt h; omega
  | succ fuel ih =>
    intro s o t m hcnt h
    unfold sendProbe at h
    cases hl : plookup m t with
    | none => rw [hl] at h; cases h
    | some p =>
      rw [hl] at h
      refine probeLoop_ne_fuelOut _ o t m p.waitingFor ?_
        (fun t' d m1 hlt => ih t' o d m1 (by omega))
        (fun t' d m1 b m2 hc => sendProbe_preserves fuel t' o d m1 b m2 hc)
        p.waitingFor m (fun k => rfl) (le_refl _) (fun x hx => hx) h
      unfold wfOf
      rw [hl]
      rfl

theorem probeLoop_true_path (f : Int → Int → PMap → DRes (Bool × PMap))
    (origin target : Int) (m0 : PMap) (p0 : Process)
    (hl0 : plookup m0 target = some p0)
    (hf : ∀ t d m1 m2, (∀ k, wfOf m1 k = wfOf m0 k) → f t d m1 = .ok (true, m2) →
        Relation.TransGen (edgeM m0) d origin)
    (hf2 : ∀ t d m1 b m2, f t d m1 = .ok (b, m2) →
        (∀ k, wfOf m2 k = wfOf m1 k) ∧ unmarkedCount m2 ≤ unmarkedCount m1) :
    ∀ (ds : List Int) (m : PMap) (m' : PMap),
      (∀ k, wfOf m k = wfOf m0 k) → (∀ d ∈ ds, d ∈ p0.waitingFor) →
      probeLoop f origin target ds m = .ok (true, m') →
      Relation.TransGen (edgeM m0) target origin := by
  intro ds
  induction ds with
  | nil =>
    intro m m' _ _ h
    unfold probeLoop at h
    cases h
  | cons d rest ih =>
    intro m m' hwf hds h
    unfold probeLoop at h
    by_cases hdo : d = origin
    · subst hdo
      exact Relation.TransGen.single ⟨p0, hl0, hds d (List.mem_cons_self d rest)⟩
    · rw [if_neg hdo] at h
      split at h
      · cases h
      · next p hl =>
        split at h
        · exact ih m m' hwf (fun x hx => hds x (List.mem_cons_of_mem d hx)) h
        · cases hcall : f target d (markReceived m target d) with
          | ok a =>
            rcases a with ⟨bb, m2⟩
            rw [hcall] at h
            have hwf1 : ∀ k, wfOf (markReceived m target d) k = wfOf m0 k :=
              fun k => (wfOf_markReceived m target d k).trans (hwf k)
            cases bb with
            | true =>
              exact Relation.TransGen.head
                ⟨p0, hl0, hds d (List.mem_cons_self d rest)⟩
                (hf target d _ m2 hwf1 hcall)
            | false =>
              obtain ⟨hw2, _⟩ := hf2 target d _ false m2 hcall
              exact ih m2 m' (fun k => (hw2 k).trans (hwf1 k))
                (fun x hx => hds x (List.mem_cons_of_mem d hx)) h
          | oob => rw [hcall] at h; cases h
          | fuelOut => rw [hcall] at h; cases h

theorem sendProbe_true_path (m0 : PMap) : ∀ (fuel : Nat) (s origin target : Int)
    (m m' : PMap),
    (∀ k, wfOf m k = wfOf m0 k) →
    sendProbe fuel s origin target m = .ok (true, m') →
    Relation.TransGen (edgeM m0) target origin := by
  intro fuel
  induction fuel with
  | zero => intro s o t m m' _ h; cases h
  | succ fuel ih =>
    intro s o t m m' hwf h
    unfold sendProbe at h
    cases hl : plookup m t with
    | none => rw [hl] at h; cases h
    | some p =>
      rw [hl] at h
      have h0 : wfOf m0 t = some p.waitingFor := by
        rw [← hwf t]
        unfold wfOf
        rw [hl]
        rfl
      cases hl0 : plookup m0 t with
      | none =>
        unfold wfOf at h0
        rw [hl0] at h0
        cases h0
      | some p0 =>
        have hw0 : p0.waitingFor = p.waitingFor := by
          unfold wfOf at h0
          rw [hl0] at h0
          simpa using h0
        exact probeLoop_true_path _ o t m0 p0 hl0
          (fun t' d m1 m2 hw hcall => ih t' o d m1 m2 hw hcall)
          (fun t' d m1 b m2 hc => sendProbe_preserves fuel t' o d m1 b m2 hc)
          p.waitingFor m m' hwf (fun x hx => hw0 ▸ hx) h

end CMH

theorem unvisitedCount_nil (procs : RPC.Table) :
    RPC.unvisitedCount procs [] = procs.length := by
  simp [RPC.unvisitedCount]

theorem edgeT_oneT_false (a b : Int) : ¬ RPC.edgeT RPC.oneT a b := by
  rintro ⟨p, hp, hb⟩
  obtain ⟨h0, hlt, hofNat, hmem⟩ := RPC.getAt_bounds RPC.oneT a p hp
  have hp0 : p = ⟨0, []⟩ := by simpa [RPC.oneT] using hmem
  rw [hp0] at hb
  simp at hb

theorem acyclicT_oneT : RPC.AcyclicT RPC.oneT := by
  intro a h
  cases h with
  | single h => exact edgeT_oneT_false a a h
  | tail _ h => exact edgeT_oneT_false _ a h

theorem edgeM_oneM_false (a b : Int) : ¬ CMH.edgeM CMH.oneM a b := by
  rintro ⟨p, hp, hb⟩
  simp only [CMH.oneM] at hp
  unfold CMH.plookup at hp
  split at hp
  · cases hp
    simp at hb
  · cases hp

theorem acyclicM_oneM : CMH.AcyclicM CMH.oneM := by
  intro a h
  cases h with
  | single h => exact edgeM_oneM_false a a h
  | tail _ h => exact edgeM_oneM_false _ a h

/-- C1: safety on acyclic graphs.  For the RPC traversal: from any initiator,
on an acyclic table, `runDDFS` never answers `true`.  For the recursive probe
variant: on an acyclic map, `sendProbe` for a detection initiated at `origin`
(so that `target` is reachable from `origin`) never answers `true`. -/
theorem C1_acyclic_safety :
    (∀ (procs : RPC.Table) (fuel : Nat) (origin : Int) (st : RPC.DState)
        (b : Bool) (st' : RPC.DState),
        RPC.AcyclicT procs →
        RPC.runDDFS procs fuel origin origin st = .ok (b, st') →
        b = false) ∧
    (∀ (m : CMH.PMap) (fuel : Nat) (s origin target : Int) (b : Bool) (m' : CMH.PMap),
        CMH.AcyclicM m →
        Relation.ReflTransGen (CMH.edgeM m) origin target →
        CMH.sendProbe fuel s origin target m = .ok (b, m') →
        b = false) := by
  constructor
  · intro procs fuel origin st b st' hacyc h
    cases b with
    | false => rfl
    | true =>
      exact absurd (RPC.runDDFS_true_path fuel procs origin origin st st' h)
        (hacyc origin)
  · intro m fuel s origin target b m' hacyc hreach h
    cases b with
    | false => rfl
    | true =>
      have hpath := CMH.sendProbe_true_path m fuel s origin target m m'
        (fun k => rfl) h
      exact absurd (Relation.TransGen.trans_right hreach hpath) (hacyc origin)

/-- Witness for C1: the one-node acyclic instances, where both traversals
complete and report `false`. -/
theorem C1_acyclic_safety_witness :
    RPC.runDDFS RPC.oneT 2 0 0 ⟨[], [], 0⟩ = .ok (false, ⟨[0], [], 0⟩) ∧
    CMH.sendProbe 2 1 1 1 CMH.oneM = .ok (false, CMH.oneM) ∧
    false = false ∧ false = false :=
  ⟨by decide, by decide,
   C1_acyclic_safety.1 RPC.oneT 2 0 ⟨[], [], 0⟩ false ⟨[0], [], 0⟩
     acyclicT_oneT (by decide),
   C1_acyclic_safety.2 CMH.oneM 2 1 1 1 false CMH.oneM
     acyclicM_oneM Relation.ReflTransGen.refl (by decide)⟩

/-- C2: a node's forwarded-flag (`visited[sessionID]`) for a session, once
true, survives handling of any probe, and over any sequence of delivered
probes a node forwards at most one probe per session. -/
theorem C2_at_most_once_forwarding :
    (∀ (p : Actor.Process) (pr : Actor.Probe) (sid : Int),
        p.visited.contains sid = true →
        ((Actor.handleProbe p pr).state).visited.contains sid = true) ∧
    (∀ (p : Actor.Process) (prs : List Actor.Probe) (sid : Int),
        Actor.forwardCount (Actor.handleSeq p prs).2 sid ≤ 1) :=
  ⟨Actor.handleProbe_visited_mono,
   fun p prs sid => (Actor.handleSeq_count prs p sid).2⟩

/-- Witness for C2 at a concrete node and probe sequence. -/
theorem C2_at_most_once_forwarding_witness :
    ((Actor.handleProbe ⟨1, [2], [7], [], 0⟩ ⟨7, 0, 0, [0]⟩).state).visited.contains 7 = true ∧
    Actor.forwardCount
      (Actor.handleSeq ⟨1, [2], [], [], 0⟩ [⟨7, 0, 0, [0]⟩, ⟨7, 0, 0, [0]⟩, ⟨7, 0, 3, [0, 3]⟩]).2 7 ≤ 1 :=
  ⟨C2_at_most_once_forwarding.1 ⟨1, [2], [7], [], 0⟩ ⟨7, 0, 0, [0]⟩ 7 (by decide),
   C2_at_most_once_forwarding.2 ⟨1, [2], [], [], 0⟩ [⟨7, 0, 0, [0]⟩, ⟨7, 0, 0, [0]⟩, ⟨7, 0, 3, [0, 3]⟩] 7⟩

/-- C3: a closing probe (initiator = handling node, session initiated here,
hence its forwarded-flag is set, deadlock not yet reported) is reported with
path = `probe.Visited`, the session is marked reported and the probe is not
forwarded; redelivering the same probe afterwards changes nothing and
produces no report and no forwarding. -/
theorem C3_idempotent_confirmation (p : Actor.Process) (pr : Actor.Probe)
    (hinit : pr.Initiator = p.ID)
    (hnotrep : p.deadlockCache.contains pr.SessionID = false)
    (hvis : p.visited.contains pr.SessionID = true) :
    (Actor.handleProbe p pr).report = some pr.Visited ∧
    (Actor.handleProbe p pr).forward = none ∧
    ((Actor.handleProbe p pr).state).deadlockCache.contains pr.SessionID = true ∧
    (Actor.handleProbe (Actor.handleProbe p pr).state pr).report = none ∧
    (Actor.handleProbe (Actor.handleProbe p pr).state pr).forward = none ∧
    (Actor.handleProbe (Actor.handleProbe p pr).state pr).state =
      (Actor.handleProbe p pr).state := by
  have h1 : Actor.handleProbe p pr =
      { state := { p with deadlockCache := pr.SessionID :: p.deadlockCache },
        report := some pr.Visited, forward := none } := by
    unfold Actor.handleProbe
    rw [if_pos ⟨hinit, by intro hcontra; rw [hnotrep] at hcontra; exact Bool.false_ne_true hcontra⟩]
  have h2 : Actor.handleProbe { p with deadlockCache := pr.SessionID :: p.deadlockCache } pr =
      { state := { p with deadlockCache := pr.SessionID :: p.deadlockCache },
        report := none, forward := none } := by
    unfold Actor.handleProbe
    rw [if_neg (by simp), if_neg (fun hc => hc.1 hvis)]
  rw [h1]
  refine ⟨rfl, rfl, by simp, ?_⟩
  rw [h2]
  exact ⟨rfl, rfl, rfl⟩

/-- Witness for C3: node 0 with its own session 77 initiated (flag set),
receiving the closing probe with path [0, 1, 2, 3]. -/
theorem C3_idempotent_confirmation_witness :
    (Actor.handleProbe ⟨0, [1], [77], [], 0⟩ ⟨77, 0, 3, [0, 1, 2, 3]⟩).report = some [0, 1, 2, 3] ∧
    (Actor.handleProbe ⟨0, [1], [77], [], 0⟩ ⟨77, 0, 3, [0, 1, 2, 3]⟩).forward = none ∧
    ((Actor.handleProbe ⟨0, [1], [77], [], 0⟩ ⟨77, 0, 3, [0, 1, 2, 3]⟩).state).deadlockCache.contains 77 = true ∧
    (Actor.handleProbe (Actor.handleProbe ⟨0, [1], [77], [], 0⟩ ⟨77, 0, 3, [0, 1, 2, 3]⟩).state ⟨77, 0, 3, [0, 1, 2, 3]⟩).report = none ∧
    (Actor.handleProbe (Actor.handleProbe ⟨0, [1], [77], [], 0⟩ ⟨77, 0, 3, [0, 1, 2, 3]⟩).state ⟨77, 0, 3, [0, 1, 2, 3]⟩).forward = none ∧
    (Actor.handleProbe (Actor.handleProbe ⟨0, [1], [77], [], 0⟩ ⟨77, 0, 3, [0, 1, 2, 3]⟩).state ⟨77, 0, 3, [0, 1, 2, 3]⟩).state =
      (Actor.handleProbe ⟨0, [1], [77], [], 0⟩ ⟨77, 0, 3, [0, 1, 2, 3]⟩).state :=
  C3_idempotent_confirmation ⟨0, [1], [77], [], 0⟩ ⟨77, 0, 3, [0, 1, 2, 3]⟩
    (by decide) (by decide) (by decide)

/-- C4 counterexample: on the table 0 → {1, 2}, 1 → {}, 2 → {0} the traversal
from 0 confirms a deadlock, but the emitted visited list [0, 1, 2] (the only
path-like datum the server surfaces, via `getSortedVisitedList` in its log;
the RPC response itself carries no path field) is not a cycle path of the
graph — the actual cycle is [0, 2]. -/
theorem C4_cex_visited_list_not_cycle :
    RPC.runDDFS RPC.branchT 5 0 0 ⟨[], [], 0⟩ = .ok (true, ⟨[2, 1, 0], [(0, 3)], 3⟩) ∧
    (RPC.DetectDeadlock RPC.branchT 5 0).2 =
      .ok ⟨"Deadlock detection completed for Process 0", "Deadlock confirmed!", [(0, 3)], 3⟩ ∧
    RPC.getSortedVisitedList [2, 1, 0] = [0, 1, 2] ∧
    RPC.isCycleList RPC.branchT [0, 1, 2] = false ∧
    RPC.isCycleList RPC.branchT [0, 2] = true := by
  decide

/-- C4 (amended): for a valid process id, once the traversal completes with
verdict `b`, `DetectDeadlock` answers with status "Deadlock confirmed!" when
`b` is true and "No deadlock detected." otherwise, together with the message
counters (no cycle path is part of the response). -/
theorem C4_status_strings (procs : RPC.Table) (fuel : Nat) (pid : Int)
    (b : Bool) (st : RPC.DState)
    (hpid : ¬ (pid < 0 ∨ (procs.length : Int) ≤ pid))
    (hrun : RPC.runDDFS procs fuel pid pid ⟨[], [], 0⟩ = .ok (b, st)) :
    (RPC.DetectDeadlock procs fuel pid).2 = .ok
      { Message := "Deadlock detection completed for Process " ++ toString pid,
        DeadlockStatus := if b then "Deadlock confirmed!" else "No deadlock detected.",
        MessageCounts := st.messageCounts, TotalMessages := st.localCounter } := by
  unfold RPC.DetectDeadlock
  rw [if_neg hpid, hrun]

/-- Witness for C4 (amended): the 4-node chain, detection from 0. -/
theorem C4_status_strings_witness :
    (RPC.DetectDeadlock RPC.chain4T 5 0).2 = .ok
      { Message := "Deadlock detection completed for Process " ++ toString (0 : Int),
        DeadlockStatus := if false then "Deadlock confirmed!" else "No deadlock detected.",
        MessageCounts := [(0, 3)], TotalMessages := 3 } :=
  C4_status_strings RPC.chain4T 5 0 false ⟨[3, 2, 1, 0], [(0, 3)], 3⟩
    (by decide) (by decide)

/-- C5: in the 4-node full cycle 0 → 1 → 2 → 3 → 0, a session initiated at
node 0 is confirmed at node 0 with initiator 0 and path [0, 1, 2, 3] after
exactly 4 probe deliveries (and not earlier). -/
theorem C5_cycle4_scenario :
    (Actor.runSys 4 (Actor.initiate Actor.cycleSys 0 100)).reports =
      [(0, 0, [0, 1, 2, 3])] ∧
    (Actor.runSys 3 (Actor.initiate Actor.cycleSys 0 100)).reports = [] := by
  decide

/-- C6: on the 4-node chain 0 → 1 → 2 → 3 (no closing edge), detection
reports no deadlock from every initiator: the RPC traversal answers
"No deadlock detected." for every starting process, and in the actor system
every initiation drains (node 3 has no targets; from node 3 nothing is even
sent) with no report ever emitted. -/
theorem C6_chain4_no_deadlock :
    (RPC.resStatus (RPC.DetectDeadlock RPC.chain4T 5 0).2 = "No deadlock detected." ∧
     RPC.resStatus (RPC.DetectDeadlock RPC.chain4T 5 1).2 = "No deadlock detected." ∧
     RPC.resStatus (RPC.DetectDeadlock RPC.chain4T 5 2).2 = "No deadlock detected." ∧
     RPC.resStatus (RPC.DetectDeadlock RPC.chain4T 5 3).2 = "No deadlock detected.") ∧
    ((Actor.runSys 5 (Actor.initiate Actor.chainSys 0 200)).reports = [] ∧
     (Actor.runSys 5 (Actor.initiate Actor.chainSys 0 200)).queue = [] ∧
     (Actor.runSys 5 (Actor.initiate Actor.chainSys 1 201)).reports = [] ∧
     (Actor.runSys 5 (Actor.initiate Actor.chainSys 1 201)).queue = [] ∧
     (Actor.runSys 5 (Actor.initiate Actor.chainSys 2 202)).reports = [] ∧
     (Actor.runSys 5 (Actor.initiate Actor.chainSys 2 202)).queue = [] ∧
     (Actor.runSys 5 (Actor.initiate Actor.chainSys 3 203)).reports = [] ∧
     (Actor.runSys 5 (Actor.initiate Actor.chainSys 3 203)).queue = []) := by
  decide

/-- C7 counterexample: an add request with the out-of-range id 99 in the
4-node system is not rejected — `AddProcess` reports success and mutates the
service state. -/
theorem C7_cex_addprocess_accepts_invalid :
    RPC.AddProcess RPC.cycle4T 99 [1] =
      (RPC.cycle4T ++ [⟨99, [1]⟩], ⟨"Process 99 added successfully!"⟩) ∧
    RPC.cycle4T ++ [⟨99, [1]⟩] ≠ RPC.cycle4T := by
  decide

/-- C7 (amended): every detection request with an out-of-range process id is
answered immediately (no fuel consumed, so no traversal, hang or runtime
error) with the explicit rejection "Invalid Process ID" and the table is
returned unchanged.  Add requests, by contrast, are never validated. -/
theorem C7_detect_invalid_id_rejected (procs : RPC.Table) (fuel : Nat) (pid : Int)
    (h : pid < 0 ∨ (procs.length : Int) ≤ pid) :
    RPC.DetectDeadlock procs fuel pid =
      (procs, .ok ⟨"Invalid Process ID", "", [], 0⟩) := by
  unfold RPC.DetectDeadlock
  rw [if_pos h]

/-- Witness for C7 (amended): id 99 against the 4-node table, with zero
fuel. -/
theorem C7_detect_invalid_id_rejected_witness :
    ((99 : Int) < 0 ∨ (RPC.cycle4T.length : Int) ≤ 99) ∧
    RPC.DetectDeadlock RPC.cycle4T 0 99 =
      (RPC.cycle4T, .ok ⟨"Invalid Process ID", "", [], 0⟩) :=
  ⟨by decide, C7_detect_invalid_id_rejected RPC.cycle4T 0 99 (by decide)⟩
/-- C8: termination.  Every RPC detection request on a table with in-range
neighbor lists is answered with a response once the fuel is at least
table length + 1 (the traversal enters at most one node per unit of fuel,
each entered node being freshly marked); the recursive probe variant
terminates once the fuel exceeds the number of unmarked wait-for edges (each
recursive call first marks a previously unmarked edge). -/
theorem C8_termination :
    (∀ (procs : RPC.Table) (fuel : Nat) (pid : Int),
        RPC.ValidTable procs → procs.length + 1 ≤ fuel →
        ∃ resp, (RPC.DetectDeadlock procs fuel pid).2 = .ok resp) ∧
    (∀ (fuel : Nat) (s origin target : Int) (m : CMH.PMap),
        CMH.unmarkedCount m + 1 ≤ fuel →
        CMH.sendProbe fuel s origin target m ≠ .fuelOut) := by
  constructor
  · intro procs fuel pid hvalid hfuel
    unfold RPC.DetectDeadlock
    by_cases hp : pid < 0 ∨ (procs.length : Int) ≤ pid
    · rw [if_pos hp]
      exact ⟨_, rfl⟩
    · rw [if_neg hp]
      push_neg at hp
      have hnf := RPC.runDDFS_ne_fuelOut fuel procs pid pid ⟨[], [], 0⟩ rfl
        (by rw [unvisitedCount_nil]; omega)
      have hno := RPC.runDDFS_ne_oob fuel procs pid pid ⟨[], [], 0⟩ hvalid hp.1 hp.2
      cases hres : RPC.runDDFS procs fuel pid pid ⟨[], [], 0⟩ with
      | ok a =>
        rcases a with ⟨b, st⟩
        exact ⟨_, rfl⟩
      | oob => exact absurd hres hno
      | fuelOut => exact absurd hres hnf
  · exact CMH.sendProbe_ne_fuelOut

/-- Witness for C8: the cyclic 4-node RPC table with fuel 5 and the cyclic
3-process map of the recursive variant with fuel 4. -/
theorem C8_termination_witness :
    (∃ resp, (RPC.DetectDeadlock RPC.cycle4T 5 0).2 = .ok resp) ∧
    CMH.sendProbe 4 1 1 2 CMH.cycleM ≠ .fuelOut :=
  ⟨C8_termination.1 RPC.cycle4T 5 0 (by unfold RPC.ValidTable; decide) (by decide),
   C8_termination.2 4 1 1 2 CMH.cycleM (by decide)⟩

/-- C9: handling never mutates the received probe (the model's probes are
immutable data); whenever a probe is forwarded, the new probe keeps the
received probe's session id and initiator, carries the forwarding node's id
as sender, and extends the path by the forwarding node's id. -/
theorem C9_forwarded_probe_fields (p : Actor.Process) (pr q : Actor.Probe)
    (h : (Actor.handleProbe p pr).forward = some q) :
    q.SessionID = pr.SessionID ∧ q.Initiator = pr.Initiator ∧
    q.Sender = p.ID ∧ q.Visited = pr.Visited ++ [p.ID] := by
  rcases Actor.handleProbe_forward_cases p pr with ⟨hf, _⟩ | ⟨hf, _, _⟩
  · rw [hf] at h; cases h
  · rw [hf] at h
    cases h
    exact ⟨rfl, rfl, rfl, rfl⟩

/-- Witness for C9: node 1 forwards session 9's probe coming from node 0. -/
theorem C9_forwarded_probe_fields_witness :
    (Actor.handleProbe ⟨1, [2], [], [], 0⟩ ⟨9, 0, 0, [0]⟩).forward =
      some ⟨9, 0, 1, [0, 1]⟩ ∧
    (9 : Int) = 9 ∧ (0 : Int) = 0 ∧ (1 : Int) = 1 ∧ [0, 1] = [(0 : Int), 1] :=
  ⟨by decide,
   (C9_forwarded_probe_fields ⟨1, [2], [], [], 0⟩ ⟨9, 0, 0, [0]⟩ ⟨9, 0, 1, [0, 1]⟩ (by decide)).1,
   (C9_forwarded_probe_fields ⟨1, [2], [], [], 0⟩ ⟨9, 0, 0, [0]⟩ ⟨9, 0, 1, [0, 1]⟩ (by decide)).2.1,
   (C9_forwarded_probe_fields ⟨1, [2], [], [], 0⟩ ⟨9, 0, 0, [0]⟩ ⟨9, 0, 1, [0, 1]⟩ (by decide)).2.2.1,
   (C9_forwarded_probe_fields ⟨1, [2], [], [], 0⟩ ⟨9, 0, 0, [0]⟩ ⟨9, 0, 1, [0, 1]⟩ (by decide)).2.2.2⟩

/-- C10: if every neighbor id in the table is a valid index then no detection
request can hit an out-of-range index (`runDDFS` only ever enters the
requested id, which passed the range check, and stored neighbor ids); and
this precondition is nowhere enforced — `AddProcess` appends any process,
with arbitrary id and neighbor list, without validation. -/
theorem C10_valid_neighbors_no_oob :
    (∀ (procs : RPC.Table) (fuel : Nat) (pid : Int),
        RPC.ValidTable procs →
        (RPC.DetectDeadlock procs fuel pid).2 ≠ .oob) ∧
    (∀ (procs : RPC.Table) (id : Int) (nbrs : List Int),
        RPC.AddProcess procs id nbrs =
          (procs ++ [{ ID := id, Neighbors := nbrs }],
           { Message := "Process " ++ toString id ++ " added successfully!" })) := by
  constructor
  · intro procs fuel pid hvalid h
    unfold RPC.DetectDeadlock at h
    by_cases hp : pid < 0 ∨ (procs.length : Int) ≤ pid
    · rw [if_pos hp] at h
      cases h
    · rw [if_neg hp] at h
      push_neg at hp
      have hno := RPC.runDDFS_ne_oob fuel procs pid pid ⟨[], [], 0⟩ hvalid hp.1 hp.2
      cases hres : RPC.runDDFS procs fuel pid pid ⟨[], [], 0⟩ with
      | ok a =>
        rcases a with ⟨b, st⟩
        rw [hres] at h
        cases h
      | oob => exact hno hres
      | fuelOut =>
        rw [hres] at h
        cases h
  · intro procs id nbrs
    rfl

/-- Witness for C10: the valid cyclic 4-node table, and an unvalidated
`AddProcess` of id 42 with a dangling neighbor. -/
theorem C10_valid_neighbors_no_oob_witness :
    (RPC.DetectDeadlock RPC.cycle4T 2 0).2 ≠ .oob ∧
    RPC.AddProcess RPC.oneT 42 [7] =
      (RPC.oneT ++ [{ ID := 42, Neighbors := [7] }],
       { Message := "Process " ++ toString (42 : Int) ++ " added successfully!" }) :=
  ⟨C10_valid_neighbors_no_oob.1 RPC.cycle4T 2 0 (by unfold RPC.ValidTable; decide),
   C10_valid_neighbors_no_oob.2 RPC.oneT 42 [7]⟩
